import Mathlib

/-!
Verification of the fixed-buffer memory allocator (`src/memory_allocator.py`).

The Python class `FixedBufferAllocator` is embedded shallowly:

* the mutable object state (`self.buffer`, `self.allocations`, `self.free_blocks`)
  becomes the structure `AllocState`; only the length of `self.buffer` is ever
  read by the code, so the buffer is represented by its length;
* Python integers become `Int` (lists indices that are provably in range are
  accessed with `List.getD`);
* methods that can raise become functions returning the post state together
  with `Except AllocError r`; the state component of an error result is the
  receiver unchanged, mirroring the fact that the source raises before any
  mutation;
* `list.pop i` is `List.eraseIdx i`, `lst[i] = x` is `List.set i x`,
  `lst.append x` is `· ++ [x]`, and `list.sort()` on `(int, int)` tuples is a
  stable sort by lexicographic order, modelled with `List.insertionSort pairLe`;
* the `while` loops (the binary search in `allocate` and the merging scan in
  `defragment`) become the recursive functions `binSearch` and `mergeLoop`,
  with the loop variables as arguments.
-/

namespace MemAlloc

/-- The four distinct error conditions raised by the source
(`ValueError` / `MemoryError` with four distinct messages). -/
inductive AllocError where
  | invalidSize
  | capacityExceeded
  | outOfMemory
  | invalidPointer
deriving Repr, DecidableEq

/-- Python exception class used for each error condition in the source. -/
def excType : AllocError → String
  | .invalidSize => "ValueError"
  | .capacityExceeded => "MemoryError"
  | .outOfMemory => "MemoryError"
  | .invalidPointer => "ValueError"

/-- Exception message used for each error condition in the source. -/
def excMessage : AllocError → String
  | .invalidSize => "Size must be greater than 0"
  | .capacityExceeded => "Requested size exceeds buffer capacity"
  | .outOfMemory => "Out of memory"
  | .invalidPointer => "Invalid pointer"

/-- State of a `FixedBufferAllocator` object: `buffer_len` is
`len(self.buffer)` (the only use the code makes of `self.buffer`),
`allocations` and `free_blocks` are the two lists of `(offset, length)`
tuples. -/
structure AllocState where
  buffer_len : Nat
  allocations : List (Int × Int)
  free_blocks : List (Int × Int)
deriving Repr, DecidableEq

/-- `__init__(buffer_size)`: `self.buffer = [None] * buffer_size` (a Python
list of length `max buffer_size 0`, i.e. `buffer_size.toNat`),
`self.allocations = []`, `self.free_blocks = [(0, buffer_size)]`.
No validation is performed on `buffer_size`. -/
def init (buffer_size : Int) : AllocState :=
  { buffer_len := buffer_size.toNat
    allocations := []
    free_blocks := [(0, buffer_size)] }

/-- The `while left <= right` binary-search loop of `allocate`
(lines 29–41 of the source).  Returns `some mid` when the loop exits via
`break` and `none` when it terminates normally (the `else: raise` branch).
Python `//` is floor division, i.e. `Int.fdiv`. -/
def binSearch (fb : List (Int × Int)) (size : Int) (left right : Int) : Option Int :=
  if h : left ≤ right then
    let mid := (left + right).fdiv 2
    if (fb.getD mid.toNat (0, 0)).2 ≥ size then
      if mid = 0 ∨ (fb.getD (mid - 1).toNat (0, 0)).2 < size then some mid
      else binSearch fb size left (mid - 1)
    else binSearch fb size (mid + 1) right
  else none
termination_by (right + 1 - left).toNat
decreasing_by
  all_goals
    simp only [Int.fdiv_eq_ediv _ (by norm_num : (0:Int) ≤ 2)] at *
  · omega
  · omega

/-- `allocate(size)`: validation, binary search, then removal/split of the
chosen free block and recording of the allocation.  The state in an error
result is unchanged because the source raises before mutating. -/
def allocate (s : AllocState) (size : Int) : AllocState × Except AllocError Int :=
  if size ≤ 0 then (s, .error .invalidSize)
  else if size > (s.buffer_len : Int) then (s, .error .capacityExceeded)
  else
    match binSearch s.free_blocks size 0 ((s.free_blocks.length : Int) - 1) with
    | none => (s, .error .outOfMemory)
    | some mid =>
      let b := s.free_blocks.getD mid.toNat (0, 0)
      let fb :=
        if b.2 = size then s.free_blocks.eraseIdx mid.toNat
        else s.free_blocks.set mid.toNat (b.1 + size, b.2 - size)
      ({ s with free_blocks := fb, allocations := s.allocations ++ [(b.1, size)] },
       .ok b.1)

/-- The `for i, (start, size) in enumerate(self.allocations)` lookup in
`free`: index and stored length of the first allocation starting at `ptr`. -/
def findAllocIdx (l : List (Int × Int)) (ptr : Int) : Option (Nat × Int) :=
  match l with
  | [] => none
  | (st, sz) :: rest =>
    if st = ptr then some (0, sz)
    else (findAllocIdx rest ptr).map (fun p => (p.1 + 1, p.2))

/-- Lexicographic order on `(int, int)` tuples: the order used by Python's
`list.sort()` in `defragment`. -/
def pairLe (a b : Int × Int) : Prop :=
  a.1 < b.1 ∨ (a.1 = b.1 ∧ a.2 ≤ b.2)

instance : DecidableRel pairLe := fun a b => by
  unfold pairLe; infer_instance

instance : IsTotal (Int × Int) pairLe :=
  ⟨by rintro ⟨x, y⟩ ⟨u, v⟩; simp only [pairLe]; omega⟩

instance : IsTrans (Int × Int) pairLe :=
  ⟨by rintro ⟨x, y⟩ ⟨u, v⟩ ⟨w, z⟩; simp only [pairLe]; omega⟩

instance : IsAntisymm (Int × Int) pairLe :=
  ⟨by rintro ⟨x, y⟩ ⟨u, v⟩ h h'; simp only [pairLe, Prod.mk.injEq] at *; omega⟩

instance : IsRefl (Int × Int) pairLe :=
  ⟨by intro a; exact Or.inr ⟨rfl, le_refl _⟩⟩

/-- The `while i < len(self.free_blocks) - 1` merging scan of `defragment`
(lines 78–86 of the source), with the already-sorted list and the loop
variable `i` as arguments. -/
def mergeLoop (fb : List (Int × Int)) (i : Nat) : List (Int × Int) :=
  if h : i + 1 < fb.length then
    let current := fb.getD i (0, 0)
    let next_block := fb.getD (i + 1) (0, 0)
    if current.1 + current.2 = next_block.1 then
      mergeLoop ((fb.set i (current.1, current.2 + next_block.2)).eraseIdx (i + 1)) i
    else
      mergeLoop fb (i + 1)
  else fb
termination_by fb.length - i
decreasing_by
  · simp only [List.length_eraseIdx, List.length_set]
    split
    · omega
    · simp at *; omega
  · omega

/-- `defragment()`: sort the free list (Python tuple order), then run the
merging scan from `i = 0`. -/
def defragment (s : AllocState) : AllocState :=
  { s with free_blocks := mergeLoop (List.insertionSort pairLe s.free_blocks) 0 }

/-- `_defragment_if_needed()`: defragment when
`len(free_blocks) > len(allocations) * 2`. -/
def defragment_if_needed (s : AllocState) : AllocState :=
  if s.free_blocks.length > s.allocations.length * 2 then defragment s else s

/-- `free(ptr)`: range check, lookup of the allocation starting at `ptr`,
removal, insertion of the freed block at the end of the free list, then the
conditional defragmentation.  The state in an error result is unchanged
because the source raises before mutating. -/
def free (s : AllocState) (ptr : Int) : AllocState × Except AllocError Unit :=
  if ¬ (0 ≤ ptr ∧ ptr < (s.buffer_len : Int)) then (s, .error .invalidPointer)
  else
    match findAllocIdx s.allocations ptr with
    | some (i, sz) =>
      (defragment_if_needed
        { s with
          allocations := s.allocations.eraseIdx i
          free_blocks := s.free_blocks ++ [(ptr, sz)] },
       .ok ())
    | none => (s, .error .invalidPointer)

/-- States reachable from a construction with positive capacity through the
public operations (`allocate` and `free` leave the state unchanged when they
raise, so their post states are taken unconditionally). -/
inductive Reachable : AllocState → Prop where
  | init (n : Int) (hn : 0 < n) : Reachable (init n)
  | alloc (s : AllocState) (size : Int) :
      Reachable s → Reachable (allocate s size).1
  | free (s : AllocState) (ptr : Int) :
      Reachable s → Reachable (MemAlloc.free s ptr).1
  | defrag (s : AllocState) : Reachable s → Reachable (defragment s)

/-- `(offset, length)` block `b` covers address `a`. -/
def covers (b : Int × Int) (a : Int) : Prop :=
  b.1 ≤ a ∧ a < b.1 + b.2

instance (b : Int × Int) (a : Int) : Decidable (covers b a) := by
  unfold covers; infer_instance

/-- Number of blocks of `l` covering address `a`. -/
def coverCount (l : List (Int × Int)) (a : Int) : Nat :=
  l.countP (fun b => decide (covers b a))

/-- All blocks (allocations then free regions) of a state. -/
def blocks (s : AllocState) : List (Int × Int) :=
  s.allocations ++ s.free_blocks

/-- Coverage invariant: every address of `[0, buffer_len)` is covered by
exactly one block, and no address outside is covered by any. -/
def covOK (s : AllocState) : Prop :=
  ∀ a : Int, coverCount (blocks s) a
    = if 0 ≤ a ∧ a < (s.buffer_len : Int) then 1 else 0

/-- Every stored block has length at least 1. -/
def lenOK (s : AllocState) : Prop :=
  ∀ b ∈ blocks s, 1 ≤ b.2

/-- The allocator invariant. -/
def Inv (s : AllocState) : Prop :=
  covOK s ∧ lenOK s

/-- State reached by the operation sequence
`FixedBufferAllocator(12)`, `allocate(4)`, `allocate(1)`, `allocate(1)`,
`allocate(1)`, `allocate(5)`, `free(0)`, `free(5)`, `free(7)`
(all of which succeed). -/
def c1State : AllocState :=
  (free ((free ((free ((allocate ((allocate ((allocate ((allocate ((allocate
    (init 12) 4).1) 1).1) 1).1) 1).1) 5).1) 0).1) 5).1) 7).1

/-- State reached by the operation sequence
`FixedBufferAllocator(12)`, `allocate(2)`, `allocate(1)`, `allocate(1)`,
`allocate(5)`, `allocate(3)`, `free(4)`, `free(2)`, `free(0)`
(all of which succeed). -/
def c2State : AllocState :=
  (free ((free ((free ((allocate ((allocate ((allocate ((allocate ((allocate
    (init 12) 2).1) 1).1) 1).1) 5).1) 3).1) 4).1) 2).1) 0).1

end MemAlloc

/-! ### Supporting lemmas -/

namespace MemAlloc

lemma getD_eq_getElem' (l : List (Int × Int)) (i : Nat) (h : i < l.length) :
    l.getD i (0, 0) = l[i] := List.getD_eq_getElem l (0, 0) h

lemma fdiv_bounds (l r : Int) (h : l ≤ r) :
    l ≤ (l + r).fdiv 2 ∧ (l + r).fdiv 2 ≤ r := by
  rw [Int.fdiv_eq_ediv _ (by norm_num)]
  omega

lemma binSearch_some_sound (fb : List (Int × Int)) (size : Int) :
    ∀ left right m : Int, binSearch fb size left right = some m → 0 ≤ left →
      right < (fb.length : Int) →
      0 ≤ m ∧ m.toNat < fb.length ∧ size ≤ (fb.getD m.toNat (0, 0)).2 := by
  intro left right
  induction left, right using binSearch.induct fb size with
  | case1 left right hlr mid hge hbrk =>
    intro m h hl hr
    rw [binSearch, dif_pos hlr, if_pos hge, if_pos hbrk] at h
    have hb := fdiv_bounds left right hlr
    simp only [Option.some.injEq] at h
    subst h
    refine ⟨by omega, by omega, hge⟩
  | case2 left right hlr mid hge hbrk ih =>
    intro m h hl hr
    rw [binSearch, dif_pos hlr, if_pos hge, if_neg hbrk] at h
    have hb := fdiv_bounds left right hlr
    exact ih m h hl (by omega)
  | case3 left right hlr mid hge ih =>
    intro m h hl hr
    rw [binSearch, dif_pos hlr, if_neg hge] at h
    have hb := fdiv_bounds left right hlr
    exact ih m h (by omega) hr
  | case4 left right hlr =>
    intro m h hl hr
    rw [binSearch, dif_neg hlr] at h
    exact absurd h (by simp)

lemma coverCount_append (l₁ l₂ : List (Int × Int)) (a : Int) :
    coverCount (l₁ ++ l₂) a = coverCount l₁ a + coverCount l₂ a := by
  simp [coverCount, List.countP_append]

lemma coverCount_singleton (x : Int × Int) (a : Int) :
    coverCount [x] a = if covers x a then 1 else 0 := by
  simp [coverCount, List.countP_cons, decide_eq_true_eq]

lemma coverCount_eraseIdx (l : List (Int × Int)) (i : Nat) (h : i < l.length) (a : Int) :
    coverCount (l.eraseIdx i) a + (if covers l[i] a then 1 else 0) = coverCount l a := by
  rw [List.eraseIdx_eq_take_drop_succ]
  conv_rhs => rw [← List.take_append_drop i l]
  rw [List.drop_eq_getElem_cons h]
  simp only [coverCount, List.countP_append, List.countP_cons, decide_eq_true_eq]
  split_ifs with hc <;> omega

lemma coverCount_set (l : List (Int × Int)) (i : Nat) (h : i < l.length) (x : Int × Int)
    (a : Int) :
    coverCount (l.set i x) a
      = coverCount (l.eraseIdx i) a + (if covers x a then 1 else 0) := by
  rw [List.set_eq_take_cons_drop x h, List.eraseIdx_eq_take_drop_succ]
  simp only [coverCount, List.countP_append, List.countP_cons, decide_eq_true_eq]
  split_ifs with hc <;> omega

lemma covers_split (st sz bs a : Int) (h1 : 0 ≤ sz) (h2 : sz ≤ bs) :
    (if covers (st, bs) a then (1:Nat) else 0)
      = (if covers (st, sz) a then 1 else 0)
        + (if covers (st + sz, bs - sz) a then 1 else 0) := by
  simp only [covers]
  split_ifs <;> simp_all <;> omega

lemma inv_init (n : Int) (hn : 0 < n) : Inv (init n) := by
  constructor
  · intro a
    have hn' : ((n.toNat : Nat) : Int) = n := Int.toNat_of_nonneg hn.le
    simp only [coverCount, blocks, init, List.nil_append, List.countP_cons, List.countP_nil,
      covers]
    split_ifs with h1 h2 h2 <;> simp_all <;> omega
  · intro b hb
    simp only [blocks, init, List.nil_append, List.mem_singleton] at hb
    subst hb
    simpa using hn

lemma allocate_error_eq (s : AllocState) (size : Int) (e : AllocError)
    (h : (allocate s size).2 = .error e) : (allocate s size).1 = s := by
  rw [allocate] at *
  split_ifs at * <;> try rfl
  revert h
  cases hb : binSearch s.free_blocks size 0 ((s.free_blocks.length : Int) - 1) <;> simp [hb]

lemma free_error_eq (s : AllocState) (ptr : Int) (e : AllocError)
    (h : (free s ptr).2 = .error e) : (free s ptr).1 = s := by
  rw [free] at *
  split_ifs at * <;> try rfl
  revert h
  cases hf : findAllocIdx s.allocations ptr with
  | none => simp [hf]
  | some p => cases p; simp [hf]

lemma allocate_ok (s : AllocState) (size : Int) (s' : AllocState) (off : Int)
    (h : allocate s size = (s', .ok off)) :
    0 < size ∧ size ≤ (s.buffer_len : Int) ∧
    ∃ i : Nat, i < s.free_blocks.length ∧
      off = (s.free_blocks.getD i (0, 0)).1 ∧
      size ≤ (s.free_blocks.getD i (0, 0)).2 ∧
      s'.buffer_len = s.buffer_len ∧
      s'.allocations = s.allocations ++ [(off, size)] ∧
      (((s.free_blocks.getD i (0, 0)).2 = size ∧
          s'.free_blocks = s.free_blocks.eraseIdx i) ∨
       (size < (s.free_blocks.getD i (0, 0)).2 ∧
          s'.free_blocks
            = s.free_blocks.set i (off + size, (s.free_blocks.getD i (0, 0)).2 - size))) := by
  rw [allocate] at h
  split_ifs at h with h1 h2
  · simp at h
  · simp at h
  · cases hb : binSearch s.free_blocks size 0 ((s.free_blocks.length : Int) - 1) with
    | none => rw [hb] at h; simp at h
    | some m =>
      rw [hb] at h
      obtain ⟨hm0, hmlen, hsz⟩ := binSearch_some_sound _ _ _ _ _ hb (le_refl 0)
        (by omega)
      dsimp only at h
      rw [Prod.mk.injEq] at h
      obtain ⟨hs', hok⟩ := h
      rw [Except.ok.injEq] at hok
      subst hok
      subst hs'
      refine ⟨by omega, by omega, m.toNat, hmlen, rfl, hsz, rfl, rfl, ?_⟩
      split_ifs with he
      · exact Or.inl ⟨he, rfl⟩
      · exact Or.inr ⟨by omega, rfl⟩

lemma inv_allocate_ok (s : AllocState) (size : Int) (s' : AllocState) (off : Int)
    (hInv : Inv s) (h : allocate s size = (s', .ok off)) : Inv s' := by
  obtain ⟨hc, hl⟩ := hInv
  obtain ⟨hpos, hcap, i, hi, hoff, hsz, hbuf, hall, hfb⟩ := allocate_ok s size s' off h
  rw [getD_eq_getElem' _ _ hi] at hoff hsz hfb
  subst hoff
  constructor
  · intro a
    have hbase := hc a
    have e1 := coverCount_eraseIdx s.free_blocks i hi a
    have e3 := covers_split (s.free_blocks[i]).1 size (s.free_blocks[i]).2 a (by omega) hsz
    rw [Prod.mk.eta] at e3
    have hgoal : blocks s'
        = (s.allocations ++ [((s.free_blocks[i]).1, size)]) ++ s'.free_blocks := by
      rw [blocks, hall]
    rw [hgoal, coverCount_append, coverCount_append, coverCount_singleton, hbuf]
    rw [coverCount, blocks, List.countP_append] at hbase
    rcases hfb with ⟨heq, hfbe⟩ | ⟨hlt, hfbe⟩
    · rw [hfbe]
      have hbc : (if covers ((s.free_blocks[i]).1, size) a then (1:Nat) else 0)
          = if covers s.free_blocks[i] a then 1 else 0 := by
        rw [← heq, Prod.mk.eta]
      simp only [coverCount] at e1 ⊢
      omega
    · have e2 := coverCount_set s.free_blocks i hi
        ((s.free_blocks[i]).1 + size, (s.free_blocks[i]).2 - size) a
      rw [hfbe]
      simp only [coverCount] at e1 e2 ⊢
      omega
  · intro x hx
    rw [blocks, hall, List.append_assoc, List.mem_append] at hx
    rcases hx with hx | hx
    · exact hl x (by rw [blocks, List.mem_append]; exact Or.inl hx)
    · rw [List.mem_append] at hx
      rcases hx with hx | hx
      · simp only [List.mem_singleton] at hx
        subst hx
        simpa using hpos
      · rcases hfb with ⟨heq, hfbe⟩ | ⟨hlt, hfbe⟩
        · rw [hfbe] at hx
          exact hl x (by rw [blocks, List.mem_append]
                         exact Or.inr ((List.eraseIdx_sublist _ i).subset hx))
        · rw [hfbe] at hx
          rcases List.mem_or_eq_of_mem_set hx with hx | hx
          · exact hl x (by rw [blocks, List.mem_append]; exact Or.inr hx)
          · subst hx
            simp only
            omega

lemma findAllocIdx_some (l : List (Int × Int)) (ptr : Int) :
    ∀ i : Nat, ∀ sz : Int, findAllocIdx l ptr = some (i, sz) →
      i < l.length ∧ l.getD i (0, 0) = (ptr, sz) := by
  induction l with
  | nil => intro i sz h; simp [findAllocIdx] at h
  | cons b rest ih =>
    intro i sz h
    rcases b with ⟨st, s0⟩
    rw [findAllocIdx] at h
    split_ifs at h with hst
    · simp only [Option.some.injEq, Prod.mk.injEq] at h
      obtain ⟨h1, h2⟩ := h
      subst h1; subst h2; subst hst
      simp
    · cases hf : findAllocIdx rest ptr with
      | none => rw [hf] at h; simp at h
      | some p =>
        rw [hf] at h
        rcases p with ⟨j, sz'⟩
        simp only [Option.map_some', Option.some.injEq, Prod.mk.injEq] at h
        obtain ⟨h1, h2⟩ := h
        subst h2
        obtain ⟨hj, hget⟩ := ih _ _ hf
        subst h1
        constructor
        · simp; omega
        · simpa [List.getD_cons_succ] using hget

lemma findAllocIdx_none_iff (l : List (Int × Int)) (ptr : Int) :
    findAllocIdx l ptr = none ↔ ∀ b ∈ l, b.1 ≠ ptr := by
  induction l with
  | nil => simp [findAllocIdx]
  | cons b rest ih =>
    rcases b with ⟨st, s0⟩
    rw [findAllocIdx]
    split_ifs with hst
    · simp [hst]
    · cases hf : findAllocIdx rest ptr with
      | none =>
        rw [hf] at ih
        simp only [List.mem_cons, forall_eq_or_imp]
        constructor
        · intro _
          exact ⟨hst, ih.mp rfl⟩
        · intro _
          simp
      | some p =>
        rw [hf] at ih
        simp only [List.mem_cons, forall_eq_or_imp]
        constructor
        · intro hcontra
          simp at hcontra
        · intro hall
          exact absurd (ih.mpr hall.2) (by simp)

lemma findAllocIdx_append_last (l : List (Int × Int)) (ptr sz : Int)
    (h : ∀ b ∈ l, b.1 ≠ ptr) :
    findAllocIdx (l ++ [(ptr, sz)]) ptr = some (l.length, sz) := by
  induction l with
  | nil => simp [findAllocIdx]
  | cons b rest ih =>
    rcases b with ⟨st, s0⟩
    rw [List.cons_append, findAllocIdx]
    rw [if_neg (by exact h (st, s0) (by simp))]
    rw [ih (fun b hb => h b (by simp [hb]))]
    simp

end MemAlloc

namespace MemAlloc

lemma mergeLoop_stop (fb : List (Int × Int)) (i : Nat) (h : ¬ i + 1 < fb.length) :
    mergeLoop fb i = fb := by
  rw [mergeLoop, dif_neg h]

lemma mergeLoop_merge_step (fb : List (Int × Int)) (i : Nat) (h : i + 1 < fb.length)
    (hmerge : (fb.getD i (0, 0)).1 + (fb.getD i (0, 0)).2 = (fb.getD (i + 1) (0, 0)).1) :
    mergeLoop fb i
      = mergeLoop ((fb.set i ((fb.getD i (0, 0)).1,
          (fb.getD i (0, 0)).2 + (fb.getD (i + 1) (0, 0)).2)).eraseIdx (i + 1)) i := by
  conv_lhs => rw [mergeLoop]
  rw [dif_pos h]
  rw [if_pos hmerge]

lemma mergeLoop_skip_step (fb : List (Int × Int)) (i : Nat) (h : i + 1 < fb.length)
    (hmerge : ¬ (fb.getD i (0, 0)).1 + (fb.getD i (0, 0)).2 = (fb.getD (i + 1) (0, 0)).1) :
    mergeLoop fb i = mergeLoop fb (i + 1) := by
  conv_lhs => rw [mergeLoop]
  rw [dif_pos h]
  rw [if_neg hmerge]

lemma mergeLoop_count_pos (fb : List (Int × Int)) (i : Nat) :
    (∀ b ∈ fb, 1 ≤ b.2) →
      (∀ a : Int, coverCount (mergeLoop fb i) a = coverCount fb a)
        ∧ (∀ b ∈ mergeLoop fb i, 1 ≤ b.2) := by
  induction fb, i using mergeLoop.induct with
  | case1 fb i h current next_block hmerge ih =>
    intro hpos
    have hcurD : current = fb.getD i (0, 0) := rfl
    have hnxtD : next_block = fb.getD (i + 1) (0, 0) := rfl
    clear_value current next_block
    have hi : i < fb.length := by omega
    have hi1 : i + 1 < fb.length := h
    have hcur : current = fb[i] := by rw [hcurD]; exact getD_eq_getElem' fb i hi
    have hnxt : next_block = fb[i + 1] := by rw [hnxtD]; exact getD_eq_getElem' fb (i + 1) hi1
    have hcpos : 1 ≤ current.2 := hcur ▸ hpos _ (List.getElem_mem hi)
    have hnpos : 1 ≤ next_block.2 := hnxt ▸ hpos _ (List.getElem_mem hi1)
    have hstep := mergeLoop_merge_step fb i h (by rw [← hcurD, ← hnxtD]; exact hmerge)
    rw [← hcurD, ← hnxtD] at hstep
    have hposL : ∀ b ∈ (fb.set i (current.1, current.2 + next_block.2)).eraseIdx (i + 1),
        1 ≤ b.2 := by
      intro b hb
      have hb' := (List.eraseIdx_sublist _ (i + 1)).subset hb
      rcases List.mem_or_eq_of_mem_set hb' with hb'' | hb''
      · exact hpos _ hb''
      · subst hb''; simp only; omega
    obtain ⟨ihc, ihp⟩ := ih hposL
    rw [hstep]
    refine ⟨?_, ihp⟩
    intro a
    rw [ihc a]
    have hi1L : i + 1 < (fb.set i (current.1, current.2 + next_block.2)).length := by
      simp; omega
    have e1 := coverCount_eraseIdx _ (i + 1) hi1L a
    have hLi1 : (fb.set i (current.1, current.2 + next_block.2))[i + 1] = fb[i + 1] :=
      List.getElem_set_ne (by omega) _
    have e2 := coverCount_set fb i hi (current.1, current.2 + next_block.2) a
    have e3 := coverCount_eraseIdx fb i hi a
    have e4 := covers_split current.1 current.2 (current.2 + next_block.2) a
      (by omega) (by omega)
    rw [Prod.mk.eta] at e4
    have e5 : (if covers (current.1 + current.2, current.2 + next_block.2 - current.2) a
        then (1:Nat) else 0) = if covers next_block a then 1 else 0 := by
      have hx : (current.1 + current.2, current.2 + next_block.2 - current.2)
          = (next_block.1, next_block.2) := by
        rw [Prod.mk.injEq]
        exact ⟨hmerge, by ring⟩
      rw [hx, Prod.mk.eta]
    rw [hLi1, ← hnxt] at e1
    rw [← hcur] at e3
    rw [e5] at e4
    simp only [coverCount] at e1 e2 e3 ⊢
    omega
  | case2 fb i h current next_block hmerge ih =>
    intro hpos
    have hcurD : current = fb.getD i (0, 0) := rfl
    have hnxtD : next_block = fb.getD (i + 1) (0, 0) := rfl
    clear_value current next_block
    rw [mergeLoop_skip_step fb i h (by rw [← hcurD, ← hnxtD]; exact hmerge)]
    exact ih hpos
  | case3 fb i h =>
    intro hpos
    rw [mergeLoop_stop fb i h]
    exact ⟨fun a => rfl, hpos⟩

end MemAlloc

namespace MemAlloc

lemma perm_coverCount {l₁ l₂ : List (Int × Int)} (h : l₁.Perm l₂) (a : Int) :
    coverCount l₁ a = coverCount l₂ a := h.countP_eq _

lemma defragment_allocations (s : AllocState) :
    (defragment s).allocations = s.allocations := rfl

lemma defragment_buffer_len (s : AllocState) :
    (defragment s).buffer_len = s.buffer_len := rfl

lemma inv_defragment (s : AllocState) (hInv : Inv s) : Inv (defragment s) := by
  obtain ⟨hc, hl⟩ := hInv
  have hperm := List.perm_insertionSort pairLe s.free_blocks
  have hposS : ∀ b ∈ List.insertionSort pairLe s.free_blocks, 1 ≤ b.2 := by
    intro b hb
    exact hl b (by rw [blocks, List.mem_append]; exact Or.inr (hperm.subset hb))
  obtain ⟨hcnt, hpos⟩ := mergeLoop_count_pos _ 0 hposS
  constructor
  · intro a
    have hbase := hc a
    rw [blocks, coverCount_append] at hbase
    rw [blocks, defragment]
    simp only
    rw [coverCount_append, hcnt a, perm_coverCount hperm a]
    exact hbase
  · intro b hb
    rw [blocks, defragment] at hb
    simp only at hb
    rw [List.mem_append] at hb
    rcases hb with hb | hb
    · exact hl b (by rw [blocks, List.mem_append]; exact Or.inl hb)
    · exact hpos b hb

lemma inv_defragment_if_needed (s : AllocState) (hInv : Inv s) :
    Inv (defragment_if_needed s) := by
  rw [defragment_if_needed]
  split_ifs with h
  · exact inv_defragment s hInv
  · exact hInv

lemma free_ok (s : AllocState) (ptr : Int) (s' : AllocState)
    (h : free s ptr = (s', .ok ())) :
    ∃ i : Nat, ∃ sz : Int, 0 ≤ ptr ∧ ptr < (s.buffer_len : Int) ∧
      findAllocIdx s.allocations ptr = some (i, sz) ∧
      s' = defragment_if_needed
        { s with
          allocations := s.allocations.eraseIdx i
          free_blocks := s.free_blocks ++ [(ptr, sz)] } := by
  rw [free] at h
  split_ifs at h with h1
  · cases hf : findAllocIdx s.allocations ptr with
    | none => rw [hf] at h; simp at h
    | some p =>
      rcases p with ⟨i, sz⟩
      rw [hf] at h
      simp only [Prod.mk.injEq] at h
      exact ⟨i, sz, h1.1, h1.2, rfl, h.1.symm⟩
  · simp at h

lemma inv_free_ok (s : AllocState) (ptr : Int) (s' : AllocState)
    (hInv : Inv s) (h : free s ptr = (s', .ok ())) : Inv s' := by
  obtain ⟨i, sz, h0, h1, hf, hs'⟩ := free_ok s ptr s' h
  obtain ⟨hil, hig⟩ := findAllocIdx_some _ _ _ _ hf
  rw [getD_eq_getElem' _ _ hil] at hig
  have hmid : Inv { s with
      allocations := s.allocations.eraseIdx i
      free_blocks := s.free_blocks ++ [(ptr, sz)] } := by
    obtain ⟨hc, hl⟩ := hInv
    constructor
    · intro a
      have hbase := hc a
      have e1 := coverCount_eraseIdx s.allocations i hil a
      rw [hig] at e1
      rw [blocks]
      simp only
      rw [coverCount_append, coverCount_append, coverCount_singleton]
      rw [blocks, coverCount_append] at hbase
      omega
    · intro b hb
      rw [blocks] at hb
      simp only at hb
      rw [List.mem_append] at hb
      rcases hb with hb | hb
      · exact hl b (by
          rw [blocks, List.mem_append]
          exact Or.inl ((List.eraseIdx_sublist _ i).subset hb))
      · rw [List.mem_append] at hb
        rcases hb with hb | hb
        · exact hl b (by rw [blocks, List.mem_append]; exact Or.inr hb)
        · simp only [List.mem_singleton] at hb
          subst hb
          have : s.allocations[i] ∈ s.allocations := List.getElem_mem hil
          have := hl s.allocations[i] (by rw [blocks, List.mem_append]; exact Or.inl this)
          rw [hig] at this
          exact this
  rw [hs']
  exact inv_defragment_if_needed _ hmid

lemma inv_allocate_state (s : AllocState) (size : Int) (hInv : Inv s) :
    Inv (allocate s size).1 := by
  rcases h2 : (allocate s size).2 with e | off
  · rw [allocate_error_eq s size e h2]
    exact hInv
  · refine inv_allocate_ok s size _ off hInv ?_
    rw [← h2, Prod.mk.eta]

lemma inv_free_state (s : AllocState) (ptr : Int) (hInv : Inv s) :
    Inv (free s ptr).1 := by
  rcases h2 : (free s ptr).2 with e | u
  · rw [free_error_eq s ptr e h2]
    exact hInv
  · cases u
    refine inv_free_ok s ptr _ hInv ?_
    rw [← h2, Prod.mk.eta]

lemma reachable_inv (s : AllocState) (h : Reachable s) : Inv s := by
  induction h with
  | init n hn => exact inv_init n hn
  | alloc s size hr ih => exact inv_allocate_state s size ih
  | free s ptr hr ih => exact inv_free_state s ptr ih
  | defrag s hr ih => exact inv_defragment s ih

end MemAlloc

namespace MemAlloc

lemma coverCount_le_one_pairwise (l : List (Int × Int)) (h : ∀ a : Int, coverCount l a ≤ 1) :
    l.Pairwise (fun b c => ∀ a : Int, ¬(covers b a ∧ covers c a)) := by
  induction l with
  | nil => simp
  | cons x t ih =>
    rw [List.pairwise_cons]
    constructor
    · rintro c hc a ⟨hxa, hca⟩
      have hcount := h a
      rw [coverCount, List.countP_cons] at hcount
      have hpos : 0 < t.countP (fun b => decide (covers b a)) :=
        List.countP_pos_iff.mpr ⟨c, hc, by simp [hca]⟩
      have hxa' : (if decide (covers x a) = true then 1 else 0) = 1 := by simp [hxa]
      omega
    · refine ih ?_
      intro a
      have hcount := h a
      rw [coverCount, List.countP_cons] at hcount
      simp only [coverCount]
      omega

lemma inv_coverCount_le_one (s : AllocState) (hInv : Inv s) (a : Int) :
    coverCount (blocks s) a ≤ 1 := by
  rw [hInv.1 a]
  split_ifs <;> omega

lemma inv_blocks_pairwise (s : AllocState) (hInv : Inv s) :
    (blocks s).Pairwise (fun b c => ∀ a : Int, ¬(covers b a ∧ covers c a)) :=
  coverCount_le_one_pairwise _ (inv_coverCount_le_one s hInv)

lemma inv_union (s : AllocState) (hInv : Inv s) (a : Int) :
    (0 ≤ a ∧ a < (s.buffer_len : Int)) ↔ ∃ b ∈ blocks s, covers b a := by
  constructor
  · intro h
    have := hInv.1 a
    rw [if_pos h] at this
    have hpos : 0 < coverCount (blocks s) a := by omega
    rw [coverCount] at hpos
    obtain ⟨b, hb, hcov⟩ := List.countP_pos_iff.mp hpos
    exact ⟨b, hb, by simpa using hcov⟩
  · rintro ⟨b, hb, hcov⟩
    by_contra hout
    have := hInv.1 a
    rw [if_neg hout] at this
    have hpos : 0 < coverCount (blocks s) a :=
      List.countP_pos_iff.mpr ⟨b, hb, by simp [hcov]⟩
    omega

lemma inv_alloc_offsets_nodup (s : AllocState) (hInv : Inv s) :
    (s.allocations.map Prod.fst).Nodup := by
  have hpw := inv_blocks_pairwise s hInv
  rw [blocks] at hpw
  have hpw' := hpw.sublist (List.sublist_append_left _ _)
  rw [List.Nodup, List.pairwise_map]
  refine hpw'.imp_of_mem ?_
  intro b c hb hc hdisj
  intro heq
  have h1 : 1 ≤ b.2 := hInv.2 b (by rw [blocks, List.mem_append]; exact Or.inl hb)
  have h2 : 1 ≤ c.2 := hInv.2 c (by rw [blocks, List.mem_append]; exact Or.inl hc)
  exact hdisj b.1 ⟨⟨le_refl _, by omega⟩, ⟨by omega, by omega⟩⟩

lemma free_err_iff (s : AllocState) (ptr : Int) :
    (free s ptr).2 = .error .invalidPointer
      ↔ (¬(0 ≤ ptr ∧ ptr < (s.buffer_len : Int)) ∨ ∀ b ∈ s.allocations, b.1 ≠ ptr) := by
  rw [free]
  split_ifs with h1
  · cases hf : findAllocIdx s.allocations ptr with
    | none =>
      simp only [hf]
      constructor
      · intro _
        exact Or.inr ((findAllocIdx_none_iff _ _).mp hf)
      · intro _
        trivial
    | some p =>
      rcases p with ⟨i, sz⟩
      simp only [hf]
      constructor
      · intro hcontra
        simp at hcontra
      · rintro (hout | hall)
        · exact absurd h1 hout
        · rw [(findAllocIdx_none_iff _ _).mpr hall] at hf
          simp at hf
  · simp only
    constructor
    · intro _
      exact Or.inl h1
    · intro _
      trivial

lemma free_ok_components (s : AllocState) (ptr : Int)
    (h : (free s ptr).2 = .ok ()) :
    (free s ptr).1.buffer_len = s.buffer_len ∧
    ∃ i : Nat, ∃ sz : Int, findAllocIdx s.allocations ptr = some (i, sz) ∧
      (free s ptr).1.allocations = s.allocations.eraseIdx i := by
  have hfull : free s ptr = ((free s ptr).1, .ok ()) := by
    rw [← h, Prod.mk.eta]
  obtain ⟨i, sz, h0, h1, hf, hs'⟩ := free_ok s ptr _ hfull
  refine ⟨?_, i, sz, hf, ?_⟩ <;>
    rw [hs', defragment_if_needed] <;> split_ifs <;> rfl

end MemAlloc

namespace MemAlloc

lemma free_twice_err (s : AllocState) (ptr : Int) (hInv : Inv s)
    (h : (free s ptr).2 = .ok ()) :
    (free (free s ptr).1 ptr).2 = .error .invalidPointer := by
  obtain ⟨hbuf, i, sz, hf, hall⟩ := free_ok_components s ptr h
  obtain ⟨hil, hig⟩ := findAllocIdx_some _ _ _ _ hf
  rw [getD_eq_getElem' _ _ hil] at hig
  rw [free_err_iff]
  refine Or.inr ?_
  rw [hall]
  intro b hb heq
  have hbmem : b ∈ s.allocations := (List.eraseIdx_sublist _ i).subset hb
  have hb2 : 1 ≤ b.2 := hInv.2 b (by rw [blocks, List.mem_append]; exact Or.inl hbmem)
  have hcovb : covers b ptr := ⟨by omega, by omega⟩
  have hsz : 1 ≤ sz := by
    have hm := hInv.2 s.allocations[i]
      (by rw [blocks, List.mem_append]; exact Or.inl (List.getElem_mem hil))
    rw [hig] at hm
    exact hm
  have hcovi : covers (ptr, sz) ptr := ⟨le_refl _, by simp; omega⟩
  have e1 := coverCount_eraseIdx s.allocations i hil ptr
  rw [hig, if_pos hcovi] at e1
  have hposE : 0 < coverCount (s.allocations.eraseIdx i) ptr := by
    rw [coverCount]
    exact List.countP_pos_iff.mpr ⟨b, hb, by simp [hcovb]⟩
  have hBound := inv_coverCount_le_one s hInv ptr
  rw [blocks, coverCount_append] at hBound
  omega

/-- C3: for every reachable state (constructed with positive capacity, then any
sequence of `allocate` / `free` / `defragment` calls), the ranges of all
allocations and free regions are pairwise disjoint, their union is exactly
`[0, capacity)`, every stored length is at least 1, and no two allocations
share an offset. -/
theorem C3_coverage_invariant (s : AllocState) (h : Reachable s) :
    (blocks s).Pairwise (fun b c => ∀ a : Int, ¬(covers b a ∧ covers c a)) ∧
    (∀ a : Int, (0 ≤ a ∧ a < (s.buffer_len : Int)) ↔ ∃ b ∈ blocks s, covers b a) ∧
    (∀ b ∈ blocks s, 1 ≤ b.2) ∧
    (s.allocations.map Prod.fst).Nodup := by
  have hInv := reachable_inv s h
  exact ⟨inv_blocks_pairwise s hInv, inv_union s hInv, hInv.2,
    inv_alloc_offsets_nodup s hInv⟩

/-- Witness for C3 at the concrete reachable state `init 1`. -/
theorem C3_coverage_invariant_witness :
    (blocks (init 1)).Pairwise (fun b c => ∀ a : Int, ¬(covers b a ∧ covers c a)) ∧
    (∀ a : Int, (0 ≤ a ∧ a < ((init 1).buffer_len : Int))
        ↔ ∃ b ∈ blocks (init 1), covers b a) ∧
    (∀ b ∈ blocks (init 1), 1 ≤ b.2) ∧
    ((init 1).allocations.map Prod.fst).Nodup :=
  C3_coverage_invariant (init 1) (Reachable.init 1 (by norm_num))

/-- C5: `allocate(size)` with `size ≤ 0` raises `ValueError` (the
`InvalidSizeError` condition), with `size > capacity` raises `MemoryError`
with the capacity message (the `CapacityExceededError` condition), and the
three allocation error conditions are pairwise distinguishable by their
Python exception class and message. -/
theorem C5_error_conditions (s : AllocState) (size : Int) :
    (size ≤ 0 → allocate s size = (s, .error .invalidSize)) ∧
    (0 < size → (s.buffer_len : Int) < size →
      allocate s size = (s, .error .capacityExceeded)) ∧
    (excType .invalidSize, excMessage .invalidSize)
      ≠ (excType .capacityExceeded, excMessage .capacityExceeded) ∧
    (excType .invalidSize, excMessage .invalidSize)
      ≠ (excType .outOfMemory, excMessage .outOfMemory) ∧
    (excType .capacityExceeded, excMessage .capacityExceeded)
      ≠ (excType .outOfMemory, excMessage .outOfMemory) := by
  refine ⟨?_, ?_, by decide, by decide, by decide⟩
  · intro h
    simp [allocate, h]
  · intro h1 h2
    rw [allocate, if_neg (by omega), if_pos (by omega)]

/-- Witness for C5 at concrete inputs: `FixedBufferAllocator(5)` rejects
`allocate(0)` with the invalid-size error and `allocate(7)` with the
capacity-exceeded error. -/
theorem C5_error_conditions_witness :
    allocate (init 5) 0 = (init 5, .error .invalidSize) ∧
    allocate (init 5) 7 = (init 5, .error .capacityExceeded) :=
  ⟨(C5_error_conditions (init 5) 0).1 (by norm_num),
   (C5_error_conditions (init 5) 7).2.1 (by norm_num) (by norm_num [init])⟩

/-- C6: for every reachable state, `free(ptr)` raises the invalid-pointer
`ValueError` exactly when `ptr` is outside `[0, capacity)` or no live
allocation starts at `ptr`; and after a successful `free(ptr)` an immediate
second `free(ptr)` raises it. -/
theorem C6_invalid_pointer (s : AllocState) (ptr : Int) (h : Reachable s) :
    ((free s ptr).2 = .error .invalidPointer
      ↔ (¬(0 ≤ ptr ∧ ptr < (s.buffer_len : Int)) ∨ ∀ b ∈ s.allocations, b.1 ≠ ptr)) ∧
    ((free s ptr).2 = .ok () →
      (free (free s ptr).1 ptr).2 = .error .invalidPointer) := by
  have hInv := reachable_inv s h
  exact ⟨free_err_iff s ptr, fun hok => free_twice_err s ptr hInv hok⟩

/-- Witness for C6 at the concrete reachable state `init 1` and pointer `0`. -/
theorem C6_invalid_pointer_witness :
    ((free (init 1) 0).2 = .error .invalidPointer
      ↔ (¬(0 ≤ (0:Int) ∧ (0:Int) < ((init 1).buffer_len : Int))
          ∨ ∀ b ∈ (init 1).allocations, b.1 ≠ (0:Int))) ∧
    ((free (init 1) 0).2 = .ok () →
      (free (free (init 1) 0).1 0).2 = .error .invalidPointer) :=
  C6_invalid_pointer (init 1) 0 (Reachable.init 1 (by norm_num))

/-- C7: when `allocate` or `free` raises, the allocator state is unchanged
(failure atomicity). -/
theorem C7_failure_atomicity (s : AllocState) (size ptr : Int) (e e' : AllocError) :
    ((allocate s size).2 = .error e → (allocate s size).1 = s) ∧
    ((free s ptr).2 = .error e' → (free s ptr).1 = s) :=
  ⟨allocate_error_eq s size e, free_error_eq s ptr e'⟩

/-- Witness for C7 at concrete failing calls: `allocate(0)` and `free(0)` on
`FixedBufferAllocator(1)` both fail and leave the state unchanged. -/
theorem C7_failure_atomicity_witness :
    (allocate (init 1) 0).1 = init 1 ∧ (free (init 1) 0).1 = init 1 :=
  ⟨(C7_failure_atomicity (init 1) 0 0 .invalidSize .invalidPointer).1
      (by simp [allocate, init]),
   (C7_failure_atomicity (init 1) 0 0 .invalidSize .invalidPointer).2
      (by simp [free, init, findAllocIdx])⟩

/-- C10: whenever `allocate(size)` succeeds, the free block the binary search
selected has length at least `size`, the recorded allocation lies entirely
inside that block, and the residual block stored by a proper split has
strictly positive length. -/
theorem C10_selected_block_fits (s : AllocState) (size : Int) (s' : AllocState)
    (off : Int) (h : allocate s size = (s', .ok off)) :
    ∃ i : Nat, i < s.free_blocks.length ∧
      off = (s.free_blocks.getD i (0, 0)).1 ∧
      size ≤ (s.free_blocks.getD i (0, 0)).2 ∧
      (∀ a : Int, covers (off, size) a → covers (s.free_blocks.getD i (0, 0)) a) ∧
      (((s.free_blocks.getD i (0, 0)).2 = size ∧
          s'.free_blocks = s.free_blocks.eraseIdx i) ∨
       (0 < (s.free_blocks.getD i (0, 0)).2 - size ∧
          s'.free_blocks
            = s.free_blocks.set i (off + size, (s.free_blocks.getD i (0, 0)).2 - size))) := by
  obtain ⟨hpos, hcap, i, hi, hoff, hsz, hbuf, hall, hfb⟩ := allocate_ok s size s' off h
  refine ⟨i, hi, hoff, hsz, ?_, ?_⟩
  · rintro a ⟨ha1, ha2⟩
    constructor
    · omega
    · simp only at ha2
      omega
  · rcases hfb with ⟨heq, hfbe⟩ | ⟨hlt, hfbe⟩
    · exact Or.inl ⟨heq, hfbe⟩
    · exact Or.inr ⟨by omega, hfbe⟩

/-- Witness for C10 at the concrete call `allocate(1)` on
`FixedBufferAllocator(2)`. -/
theorem C10_selected_block_fits_witness :
    ∃ i : Nat, i < (init 2).free_blocks.length ∧
      (0:Int) = ((init 2).free_blocks.getD i (0, 0)).1 ∧
      (1:Int) ≤ ((init 2).free_blocks.getD i (0, 0)).2 ∧
      (∀ a : Int, covers ((0:Int), (1:Int)) a
        → covers ((init 2).free_blocks.getD i (0, 0)) a) ∧
      ((((init 2).free_blocks.getD i (0, 0)).2 = 1 ∧
          (AllocState.mk 2 [(0, 1)] [(1, 1)]).free_blocks
            = (init 2).free_blocks.eraseIdx i) ∨
       (0 < ((init 2).free_blocks.getD i (0, 0)).2 - 1 ∧
          (AllocState.mk 2 [(0, 1)] [(1, 1)]).free_blocks
            = (init 2).free_blocks.set i (0 + 1, ((init 2).free_blocks.getD i (0, 0)).2 - 1))) :=
  C10_selected_block_fits (init 2) 1 (AllocState.mk 2 [(0, 1)] [(1, 1)]) 0
    (by simp [allocate, init, binSearch])

end MemAlloc

namespace MemAlloc

lemma c1State_eq : c1State = AllocState.mk 12 [(4, 1), (6, 1)] [(0, 4), (5, 1), (7, 5)] := by
  simp [c1State, allocate, free, init, binSearch, findAllocIdx, defragment_if_needed, List.eraseIdx]

lemma c2State_eq : c2State = AllocState.mk 12 [(3, 1), (9, 3)] [(4, 5), (2, 1), (0, 2)] := by
  simp [c2State, allocate, free, init, binSearch, findAllocIdx, defragment_if_needed, List.eraseIdx]

lemma c1State_reachable : Reachable c1State :=
  Reachable.free _ 7 (Reachable.free _ 5 (Reachable.free _ 0 (Reachable.alloc _ 5
    (Reachable.alloc _ 1 (Reachable.alloc _ 1 (Reachable.alloc _ 1 (Reachable.alloc _ 4
      (Reachable.init 12 (by norm_num)))))))))

lemma c2State_reachable : Reachable c2State :=
  Reachable.free _ 0 (Reachable.free _ 2 (Reachable.free _ 4 (Reachable.alloc _ 3
    (Reachable.alloc _ 5 (Reachable.alloc _ 1 (Reachable.alloc _ 1 (Reachable.alloc _ 2
      (Reachable.init 12 (by norm_num)))))))))

/-- C1 (refuted on the code): `c1State` is reachable and its free list is
`[(0, 4), (5, 1), (7, 5)]`, yet `allocate(3)` allocates from the block at
offset 7 (length 5) although the block `(0, 4)` (length 4) is the smallest
free block of length at least 3 — the selection is not best-fit. -/
theorem C1_best_fit_code_bug :
    Reachable c1State ∧
    c1State.free_blocks = [(0, 4), (5, 1), (7, 5)] ∧
    (allocate c1State 3).2 = .ok 7 ∧
    ∃ b ∈ c1State.free_blocks, 3 ≤ b.2 ∧ b.2 < 5 ∧ b.1 ≠ 7 := by
  refine ⟨c1State_reachable, ?_, ?_, ?_⟩
  · rw [c1State_eq]
  · rw [c1State_eq]
    simp [allocate, binSearch]
  · rw [c1State_eq]
    exact ⟨(0, 4), by simp, by norm_num⟩

/-- C2 (refuted on the code): `c2State` is reachable and holds the free block
`(4, 5)` of length `5 ≥ 4`, yet `allocate(4)` raises the out-of-memory
`MemoryError`. -/
theorem C2_oom_code_bug :
    Reachable c2State ∧
    c2State.free_blocks = [(4, 5), (2, 1), (0, 2)] ∧
    ((4:Int), (5:Int)) ∈ c2State.free_blocks ∧
    (allocate c2State 4).2 = .error .outOfMemory := by
  refine ⟨c2State_reachable, ?_, ?_, ?_⟩
  · rw [c2State_eq]
  · rw [c2State_eq]; simp
  · rw [c2State_eq]
    simp [allocate, binSearch]

/-- C4 (counterexample): constructing with capacity `0` does not raise — it
returns a state whose free list stores the zero-length region `(0, 0)`,
violating the minimum-length requirement on stored regions. -/
theorem C4_construction_cex :
    (init 0).free_blocks = [(0, 0)] ∧ ¬ lenOK (init 0) := by
  constructor
  · rfl
  · intro h
    have := h (0, 0) (by simp [blocks, init])
    simp at this

/-- C4 (amended): construction performs no validation and always succeeds for
any integer capacity, recording the single free region `(0, capacity)` over a
buffer of length `max capacity 0`; for positive capacity the region spans the
whole buffer and the allocator invariant holds. -/
theorem C4_construction_amended (n : Int) :
    (init n).allocations = [] ∧ (init n).free_blocks = [(0, n)] ∧
    (init n).buffer_len = n.toNat ∧ (0 < n → Inv (init n)) :=
  ⟨rfl, rfl, rfl, fun hn => inv_init n hn⟩

/-- Witness for the amended C4 at capacity 5. -/
theorem C4_construction_amended_witness :
    (init 5).allocations = [] ∧ (init 5).free_blocks = [(0, 5)] ∧
    (init 5).buffer_len = (5:Int).toNat ∧ Inv (init 5) :=
  ⟨(C4_construction_amended 5).1, (C4_construction_amended 5).2.1,
   (C4_construction_amended 5).2.2.1, (C4_construction_amended 5).2.2.2 (by norm_num)⟩

end MemAlloc

namespace MemAlloc

lemma mergeLoop_nil (i : Nat) : mergeLoop [] i = [] :=
  mergeLoop_stop _ _ (by simp)

lemma mergeLoop_single (b : Int × Int) (i : Nat) : mergeLoop [b] i = [b] :=
  mergeLoop_stop _ _ (by simp)

lemma mergeLoop_cons_succ (l : List (Int × Int)) (i : Nat) :
    ∀ b : Int × Int, mergeLoop (b :: l) (i + 1) = b :: mergeLoop l i := by
  induction l, i using mergeLoop.induct with
  | case1 l i h current next_block hmerge ih =>
    intro b
    have hcurD : current = l.getD i (0, 0) := rfl
    have hnxtD : next_block = l.getD (i + 1) (0, 0) := rfl
    clear_value current next_block
    have hstep := mergeLoop_merge_step l i h (by rw [← hcurD, ← hnxtD]; exact hmerge)
    have hstep' := mergeLoop_merge_step (b :: l) (i + 1) (by simpa using h)
      (by rw [List.getD_cons_succ, List.getD_cons_succ, ← hcurD, ← hnxtD]; exact hmerge)
    rw [hstep', hstep]
    rw [List.getD_cons_succ, List.getD_cons_succ, ← hcurD, ← hnxtD]
    have hset : (b :: l).set (i + 1) (current.1, current.2 + next_block.2)
        = b :: l.set i (current.1, current.2 + next_block.2) := rfl
    rw [hset]
    have herase : (b :: l.set i (current.1, current.2 + next_block.2)).eraseIdx (i + 1 + 1)
        = b :: (l.set i (current.1, current.2 + next_block.2)).eraseIdx (i + 1) := rfl
    rw [herase]
    exact ih b
  | case2 l i h current next_block hmerge ih =>
    intro b
    have hcurD : current = l.getD i (0, 0) := rfl
    have hnxtD : next_block = l.getD (i + 1) (0, 0) := rfl
    clear_value current next_block
    rw [mergeLoop_skip_step l i h (by rw [← hcurD, ← hnxtD]; exact hmerge)]
    rw [mergeLoop_skip_step (b :: l) (i + 1) (by simpa using h)
      (by rw [List.getD_cons_succ, List.getD_cons_succ, ← hcurD, ← hnxtD]; exact hmerge)]
    exact ih b
  | case3 l i h =>
    intro b
    rw [mergeLoop_stop l i h, mergeLoop_stop (b :: l) (i + 1) (by simpa using h)]

lemma mergeLoop_cons₂_merge (b c : Int × Int) (t : List (Int × Int))
    (h : b.1 + b.2 = c.1) :
    mergeLoop (b :: c :: t) 0 = mergeLoop ((b.1, b.2 + c.2) :: t) 0 := by
  have hstep := mergeLoop_merge_step (b :: c :: t) 0 (by simp)
    (by simpa [List.getD_cons_succ] using h)
  simpa [List.getD_cons_succ] using hstep

lemma mergeLoop_cons₂_skip (b c : Int × Int) (t : List (Int × Int))
    (h : ¬ b.1 + b.2 = c.1) :
    mergeLoop (b :: c :: t) 0 = b :: mergeLoop (c :: t) 0 := by
  have hstep := mergeLoop_skip_step (b :: c :: t) 0 (by simp)
    (by simpa [List.getD_cons_succ] using h)
  rw [hstep, mergeLoop_cons_succ]

lemma chain_gap_mem (t : List (Int × Int)) :
    ∀ b : Int × Int, (∀ x ∈ t, 1 ≤ x.2) →
      (∀ y ∈ t.head?, b.1 + b.2 < y.1) →
      t.Chain' (fun x y => x.1 + x.2 < y.1) →
      ∀ c ∈ t, b.1 + b.2 < c.1 := by
  induction t with
  | nil => simp
  | cons c t' ih =>
    intro b hpos hhead hchain d hd
    rcases List.mem_cons.mp hd with rfl | hd
    · exact hhead d rfl
    · rw [List.chain'_cons'] at hchain
      have hc2 : 1 ≤ c.2 := hpos c (by simp)
      have := ih c (fun x hx => hpos x (by simp [hx])) hchain.1 hchain.2 d hd
      have hbc := hhead c rfl
      omega

lemma chain_gap_pairwise (l : List (Int × Int)) (hp : ∀ x ∈ l, 1 ≤ x.2)
    (hg : l.Chain' (fun x y => x.1 + x.2 < y.1)) :
    l.Pairwise (fun x y => x.1 + x.2 < y.1) := by
  induction l with
  | nil => simp
  | cons b t ih =>
    rw [List.chain'_cons'] at hg
    rw [List.pairwise_cons]
    exact ⟨chain_gap_mem t b (fun x hx => hp x (by simp [hx])) hg.1 hg.2,
      ih (fun x hx => hp x (by simp [hx])) hg.2⟩

lemma mergeLoop_zero_gap : ∀ n : Nat, ∀ l : List (Int × Int), l.length ≤ n →
    l.Chain' (fun x y => x.1 + x.2 ≤ y.1) → (∀ x ∈ l, 1 ≤ x.2) →
    (mergeLoop l 0).Chain' (fun x y => x.1 + x.2 < y.1) ∧
    (∀ b t, l = b :: t → ∃ k : Int, ∃ rest : List (Int × Int),
      mergeLoop l 0 = (b.1, k) :: rest) := by
  intro n
  induction n with
  | zero =>
    intro l hlen _ _
    have : l = [] := List.length_eq_zero.mp (by omega)
    subst this
    rw [mergeLoop_nil]
    exact ⟨List.chain'_nil, by intro b t h; simp at h⟩
  | succ n ih =>
    intro l hlen hsep hpos
    match l with
    | [] =>
      rw [mergeLoop_nil]
      exact ⟨List.chain'_nil, by intro b t h; simp at h⟩
    | [b] =>
      rw [mergeLoop_single]
      refine ⟨List.chain'_singleton b, ?_⟩
      intro b' t h
      rw [List.cons.injEq] at h
      obtain ⟨hb, ht⟩ := h
      refine ⟨b.2, [], ?_⟩
      rw [← hb, Prod.mk.eta]
    | b :: c :: t =>
      by_cases hmerge : b.1 + b.2 = c.1
      · rw [mergeLoop_cons₂_merge b c t hmerge]
        rw [List.chain'_cons'] at hsep
        have hsep' : ((b.1, b.2 + c.2) :: t).Chain' (fun x y => x.1 + x.2 ≤ y.1) := by
          rw [List.chain'_cons']
          rw [List.chain'_cons'] at hsep
          constructor
          · intro y hy
            have := hsep.2.1 y hy
            simp only
            omega
          · exact hsep.2.2
        have hpos' : ∀ x ∈ (b.1, b.2 + c.2) :: t, 1 ≤ x.2 := by
          intro x hx
          rcases List.mem_cons.mp hx with rfl | hx
          · have h1 := hpos b (by simp)
            have h2 := hpos c (by simp)
            simp only
            omega
          · exact hpos x (by simp [hx])
        obtain ⟨hgap, hhead⟩ := ih ((b.1, b.2 + c.2) :: t) (by simp at hlen ⊢; omega)
          hsep' hpos'
        refine ⟨hgap, ?_⟩
        intro b' t' h
        rw [List.cons.injEq] at h
        obtain ⟨hb, ht⟩ := h
        obtain ⟨k, rest, hk⟩ := hhead (b.1, b.2 + c.2) t rfl
        refine ⟨k, rest, ?_⟩
        rw [← hb]
        simpa using hk
      · rw [mergeLoop_cons₂_skip b c t hmerge]
        rw [List.chain'_cons'] at hsep
        have hposct : ∀ x ∈ c :: t, 1 ≤ x.2 := fun x hx => hpos x (by simp [hx])
        obtain ⟨hgap, hhead⟩ := ih (c :: t) (by simp at hlen ⊢; omega) hsep.2 hposct
        obtain ⟨k, rest, hk⟩ := hhead c t rfl
        constructor
        · rw [List.chain'_cons']
          refine ⟨?_, hgap⟩
          intro y hy
          rw [hk] at hy
          simp only [List.head?_cons, Option.mem_def, Option.some.injEq] at hy
          subst hy
          have := hsep.1 c rfl
          simp only
          omega
        · intro b' t' h
          rw [List.cons.injEq] at h
          obtain ⟨hb, ht⟩ := h
          refine ⟨b.2, mergeLoop (c :: t) 0, ?_⟩
          rw [← hb, Prod.mk.eta]

lemma mergeLoop_zero_of_gap (l : List (Int × Int))
    (h : l.Chain' (fun x y => x.1 + x.2 < y.1)) : mergeLoop l 0 = l := by
  induction l with
  | nil => exact mergeLoop_nil 0
  | cons b rest ih =>
    match rest, h with
    | [], _ => exact mergeLoop_single b 0
    | c :: t, h =>
      rw [List.chain'_cons] at h
      rw [mergeLoop_cons₂_skip b c t (by omega)]
      rw [ih h.2]

end MemAlloc

namespace MemAlloc

lemma sorted_disjoint_sep (l : List (Int × Int)) (hp : ∀ x ∈ l, 1 ≤ x.2)
    (hd : ∀ a : Int, coverCount l a ≤ 1) (hs : List.Sorted pairLe l) :
    l.Chain' (fun x y => x.1 + x.2 ≤ y.1) := by
  have hdisj := coverCount_le_one_pairwise l hd
  refine List.Pairwise.chain' ?_
  refine (hs.and hdisj).imp_of_mem ?_
  intro b c hb hc hbc
  obtain ⟨hle, hdisj'⟩ := hbc
  by_contra hgt
  have hb2 := hp b hb
  have hc2 := hp c hc
  have hb1c1 : b.1 ≤ c.1 := by
    rcases hle with h | ⟨h, _⟩
    · omega
    · omega
  exact hdisj' c.1 ⟨⟨hb1c1, by omega⟩, ⟨le_refl _, by omega⟩⟩

lemma gap_sorted (l : List (Int × Int)) (hp : ∀ x ∈ l, 1 ≤ x.2)
    (hg : l.Chain' (fun x y => x.1 + x.2 < y.1)) : List.Sorted pairLe l := by
  refine (chain_gap_pairwise l hp hg).imp_of_mem ?_
  intro b c hb hc hbc
  have := hp b hb
  exact Or.inl (by omega)

lemma free_coverCount_le_one (s : AllocState) (hInv : Inv s) (a : Int) :
    coverCount s.free_blocks a ≤ 1 := by
  have h1 := inv_coverCount_le_one s hInv a
  rw [blocks, coverCount_append] at h1
  omega

lemma free_pos (s : AllocState) (hInv : Inv s) : ∀ x ∈ s.free_blocks, 1 ≤ x.2 :=
  fun x hx => hInv.2 x (by rw [blocks, List.mem_append]; exact Or.inr hx)

lemma defragment_canon (s : AllocState) (hInv : Inv s) :
    (defragment s).free_blocks.Chain' (fun x y => x.1 + x.2 < y.1) ∧
    (∀ x ∈ (defragment s).free_blocks, 1 ≤ x.2) ∧
    List.Sorted pairLe (defragment s).free_blocks ∧
    (∀ a : Int, coverCount (defragment s).free_blocks a = coverCount s.free_blocks a) := by
  have hperm := List.perm_insertionSort pairLe s.free_blocks
  have hposS : ∀ x ∈ List.insertionSort pairLe s.free_blocks, 1 ≤ x.2 :=
    fun x hx => free_pos s hInv x (hperm.subset hx)
  have hdS : ∀ a : Int, coverCount (List.insertionSort pairLe s.free_blocks) a ≤ 1 := by
    intro a
    rw [perm_coverCount hperm a]
    exact free_coverCount_le_one s hInv a
  have hsS : List.Sorted pairLe (List.insertionSort pairLe s.free_blocks) :=
    List.sorted_insertionSort pairLe s.free_blocks
  have hsepS := sorted_disjoint_sep _ hposS hdS hsS
  obtain ⟨hgap, _⟩ := mergeLoop_zero_gap (List.insertionSort pairLe s.free_blocks).length
    _ (le_refl _) hsepS hposS
  obtain ⟨hcnt, hposM⟩ := mergeLoop_count_pos (List.insertionSort pairLe s.free_blocks)
    0 hposS
  have hfree : (defragment s).free_blocks
      = mergeLoop (List.insertionSort pairLe s.free_blocks) 0 := rfl
  rw [hfree]
  refine ⟨hgap, hposM, gap_sorted _ hposM hgap, ?_⟩
  intro a
  rw [hcnt a, perm_coverCount hperm a]

lemma defragment_idem (s : AllocState) (hInv : Inv s) :
    defragment (defragment s) = defragment s := by
  obtain ⟨hgap, hposM, hsM, _⟩ := defragment_canon s hInv
  have h1 : List.insertionSort pairLe (defragment s).free_blocks
      = (defragment s).free_blocks := hsM.insertionSort_eq
  have h2 : mergeLoop (defragment s).free_blocks 0 = (defragment s).free_blocks :=
    mergeLoop_zero_of_gap _ hgap
  rw [defragment, h1, h2]

lemma no_adjacent_of_gap (m : List (Int × Int)) (hp : ∀ x ∈ m, 1 ≤ x.2)
    (hg : m.Chain' (fun x y => x.1 + x.2 < y.1)) :
    ∀ b ∈ m, ∀ c ∈ m, b.1 + b.2 ≠ c.1 := by
  have hpw := chain_gap_pairwise m hp hg
  have hpw' : m.Pairwise (fun b c => b.1 + b.2 ≠ c.1 ∧ c.1 + c.2 ≠ b.1) := by
    refine hpw.imp_of_mem ?_
    intro b c hb hc hbc
    have h1 := hp b hb
    have h2 := hp c hc
    constructor
    · omega
    · omega
  intro b hb c hc
  by_cases heq : b = c
  · subst heq
    have := hp b hb
    omega
  · exact (hpw'.forall (fun x y hxy => ⟨hxy.2, hxy.1⟩) hb hc heq).1

/-- C9: for every reachable state, `defragment` is idempotent (a second call
changes nothing, the whole state included), and immediately after a
`defragment` call no two free regions are adjacent. -/
theorem C9_defragment_idempotent (s : AllocState) (h : Reachable s) :
    defragment (defragment s) = defragment s ∧
    ∀ b ∈ (defragment s).free_blocks, ∀ c ∈ (defragment s).free_blocks,
      b.1 + b.2 ≠ c.1 := by
  have hInv := reachable_inv s h
  obtain ⟨hgap, hposM, _, _⟩ := defragment_canon s hInv
  exact ⟨defragment_idem s hInv, no_adjacent_of_gap _ hposM hgap⟩

/-- Witness for C9 at the concrete reachable state `init 1`. -/
theorem C9_defragment_idempotent_witness :
    defragment (defragment (init 1)) = defragment (init 1) ∧
    ∀ b ∈ (defragment (init 1)).free_blocks, ∀ c ∈ (defragment (init 1)).free_blocks,
      b.1 + b.2 ≠ c.1 :=
  C9_defragment_idempotent (init 1) (Reachable.init 1 (by norm_num))

end MemAlloc

namespace MemAlloc

lemma head_min (b : Int × Int) (t : List (Int × Int))
    (hp : ∀ x ∈ b :: t, 1 ≤ x.2)
    (hg : (b :: t).Chain' (fun x y => x.1 + x.2 < y.1)) (a : Int)
    (h : ∃ d ∈ b :: t, covers d a) : b.1 ≤ a := by
  obtain ⟨d, hd, hcov⟩ := h
  rcases List.mem_cons.mp hd with rfl | hd
  · exact hcov.1
  · rw [List.chain'_cons'] at hg
    have hb2 := hp b (by simp)
    have hda := chain_gap_mem t b (fun x hx => hp x (by simp [hx])) hg.1 hg.2 d hd
    have := hcov.1
    omega

lemma end_not_covered (b : Int × Int) (t : List (Int × Int))
    (hp : ∀ x ∈ b :: t, 1 ≤ x.2)
    (hg : (b :: t).Chain' (fun x y => x.1 + x.2 < y.1)) :
    ¬ ∃ d ∈ b :: t, covers d (b.1 + b.2) := by
  rintro ⟨d, hd, hcov⟩
  rcases List.mem_cons.mp hd with rfl | hd
  · have := hcov.2
    omega
  · rw [List.chain'_cons'] at hg
    have hda := chain_gap_mem t b (fun x hx => hp x (by simp [hx])) hg.1 hg.2 d hd
    have := hcov.1
    omega

lemma canon_unique : ∀ l₁ l₂ : List (Int × Int),
    l₁.Chain' (fun x y => x.1 + x.2 < y.1) → (∀ x ∈ l₁, 1 ≤ x.2) →
    l₂.Chain' (fun x y => x.1 + x.2 < y.1) → (∀ x ∈ l₂, 1 ≤ x.2) →
    (∀ a : Int, (∃ d ∈ l₁, covers d a) ↔ (∃ d ∈ l₂, covers d a)) → l₁ = l₂ := by
  intro l₁
  induction l₁ with
  | nil =>
    intro l₂ _ _ hg₂ hp₂ hcov
    cases l₂ with
    | nil => rfl
    | cons c t₂ =>
      exfalso
      have hc2 := hp₂ c (by simp)
      have hex : ∃ d ∈ c :: t₂, covers d c.1 := ⟨c, by simp, le_refl _, by omega⟩
      obtain ⟨d, hd, _⟩ := (hcov c.1).mpr hex
      simp at hd
  | cons b t₁ ih =>
    intro l₂ hg₁ hp₁ hg₂ hp₂ hcov
    cases l₂ with
    | nil =>
      exfalso
      have hb2 := hp₁ b (by simp)
      have hex : ∃ d ∈ b :: t₁, covers d b.1 := ⟨b, by simp, le_refl _, by omega⟩
      obtain ⟨d, hd, _⟩ := (hcov b.1).mp hex
      simp at hd
    | cons c t₂ =>
      have hb2 := hp₁ b (by simp)
      have hc2 := hp₂ c (by simp)
      have h1 : c.1 ≤ b.1 := head_min c t₂ hp₂ hg₂ b.1
        ((hcov b.1).mp ⟨b, by simp, le_refl _, by omega⟩)
      have h2 : b.1 ≤ c.1 := head_min b t₁ hp₁ hg₁ c.1
        ((hcov c.1).mpr ⟨c, by simp, le_refl _, by omega⟩)
      have hoff : b.1 = c.1 := le_antisymm h2 h1
      have hend₁ := end_not_covered b t₁ hp₁ hg₁
      have hend₂ := end_not_covered c t₂ hp₂ hg₂
      have hlen : b.2 = c.2 := by
        by_contra hne
        rcases lt_or_gt_of_ne hne with hlt | hgt
        · exact hend₁ ((hcov (b.1 + b.2)).mpr
            ⟨c, by simp, by simp only [covers]; omega⟩)
        · exact hend₂ ((hcov (c.1 + c.2)).mp
            ⟨b, by simp, by simp only [covers]; omega⟩)
      rw [List.chain'_cons'] at hg₁ hg₂
      have hcovt : ∀ a : Int, (∃ d ∈ t₁, covers d a) ↔ (∃ d ∈ t₂, covers d a) := by
        intro a
        constructor
        · rintro ⟨d, hd, hcovd⟩
          have hda := chain_gap_mem t₁ b (fun x hx => hp₁ x (by simp [hx]))
            hg₁.1 hg₁.2 d hd
          obtain ⟨e, he, hcove⟩ := (hcov a).mp ⟨d, by simp [hd], hcovd⟩
          rcases List.mem_cons.mp he with rfl | he
          · exfalso
            have hd1 := hcovd.1
            have he2 := hcove.2
            omega
          · exact ⟨e, he, hcove⟩
        · rintro ⟨d, hd, hcovd⟩
          have hda := chain_gap_mem t₂ c (fun x hx => hp₂ x (by simp [hx]))
            hg₂.1 hg₂.2 d hd
          obtain ⟨e, he, hcove⟩ := (hcov a).mpr ⟨d, by simp [hd], hcovd⟩
          rcases List.mem_cons.mp he with rfl | he
          · exfalso
            have hd1 := hcovd.1
            have he2 := hcove.2
            omega
          · exact ⟨e, he, hcove⟩
      have ht := ih t₂ hg₁.2 (fun x hx => hp₁ x (by simp [hx]))
        hg₂.2 (fun x hx => hp₂ x (by simp [hx])) hcovt
      rw [List.cons.injEq]
      exact ⟨Prod.ext hoff hlen, ht⟩

end MemAlloc

namespace MemAlloc

lemma coveredBy_iff_pos (l : List (Int × Int)) (a : Int) :
    (∃ d ∈ l, covers d a) ↔ 0 < coverCount l a := by
  rw [coverCount, List.countP_pos_iff]
  simp only [decide_eq_true_eq]

lemma roundtrip_free_count (s : AllocState) (n : Int) (s' : AllocState) (off : Int)
    (h : allocate s n = (s', .ok off)) (a : Int) :
    coverCount (s'.free_blocks ++ [(off, n)]) a = coverCount s.free_blocks a := by
  obtain ⟨hpos, hcap, i, hi, hoff, hsz, hbuf, hall, hfb⟩ := allocate_ok s n s' off h
  rw [getD_eq_getElem' _ _ hi] at hoff hsz hfb
  subst hoff
  rw [coverCount_append, coverCount_singleton]
  have e1 := coverCount_eraseIdx s.free_blocks i hi a
  have e3 := covers_split (s.free_blocks[i]).1 n (s.free_blocks[i]).2 a (by omega) hsz
  rw [Prod.mk.eta] at e3
  rcases hfb with ⟨heq, hfbe⟩ | ⟨hlt, hfbe⟩
  · rw [hfbe]
    have hbc : (if covers ((s.free_blocks[i]).1, n) a then (1:Nat) else 0)
        = if covers s.free_blocks[i] a then 1 else 0 := by
      rw [← heq, Prod.mk.eta]
    omega
  · have e2 := coverCount_set s.free_blocks i hi
      ((s.free_blocks[i]).1 + n, (s.free_blocks[i]).2 - n) a
    rw [hfbe]
    omega

lemma free_after_allocate (s : AllocState) (n : Int) (s' : AllocState) (off : Int)
    (hInv : Inv s) (h : allocate s n = (s', .ok off)) :
    free s' off
      = (defragment_if_needed
          (AllocState.mk s.buffer_len s.allocations (s'.free_blocks ++ [(off, n)])),
         .ok ()) := by
  obtain ⟨hpos, hcap, i, hi, hoff, hsz, hbuf, hall, hfb⟩ := allocate_ok s n s' off h
  rw [getD_eq_getElem' _ _ hi] at hoff hsz hfb
  have hmemF : s.free_blocks[i] ∈ s.free_blocks := List.getElem_mem hi
  have hFpos : 1 ≤ (s.free_blocks[i]).2 := free_pos s hInv _ hmemF
  have hcovoff : covers s.free_blocks[i] (s.free_blocks[i]).1 := ⟨le_refl _, by omega⟩
  have hrange : 0 ≤ off ∧ off < (s.buffer_len : Int) := by
    have := (inv_union s hInv (s.free_blocks[i]).1).mpr
      ⟨s.free_blocks[i], by rw [blocks, List.mem_append]; exact Or.inr hmemF, hcovoff⟩
    rw [hoff]
    exact this
  have hnone : ∀ b ∈ s.allocations, b.1 ≠ off := by
    intro b hb heq
    have hb2 : 1 ≤ b.2 := hInv.2 b (by rw [blocks, List.mem_append]; exact Or.inl hb)
    have hcovb : covers b off := ⟨by omega, by omega⟩
    have hcovF : covers s.free_blocks[i] off := by rw [hoff]; exact hcovoff
    have hA : 0 < coverCount s.allocations off := by
      rw [coverCount]
      exact List.countP_pos_iff.mpr ⟨b, hb, by simp [hcovb]⟩
    have hF : 0 < coverCount s.free_blocks off := by
      rw [coverCount]
      exact List.countP_pos_iff.mpr ⟨s.free_blocks[i], hmemF, by simp [hcovF]⟩
    have hle := inv_coverCount_le_one s hInv off
    rw [blocks, coverCount_append] at hle
    omega
  have hfind : findAllocIdx s'.allocations off = some (s.allocations.length, n) := by
    rw [hall]
    exact findAllocIdx_append_last _ _ _ hnone
  have herase : s'.allocations.eraseIdx s.allocations.length = s.allocations := by
    rw [hall, List.eraseIdx_eq_take_drop_succ]
    simp
  rw [free, if_neg (not_not_intro (by rw [hbuf]; exact hrange)), hfind]
  dsimp only
  rw [herase, hbuf]

lemma inv_mid_roundtrip (s : AllocState) (n : Int) (s' : AllocState) (off : Int)
    (hInv : Inv s) (h : allocate s n = (s', .ok off)) :
    Inv (AllocState.mk s.buffer_len s.allocations (s'.free_blocks ++ [(off, n)])) := by
  have hInv' := inv_allocate_ok s n s' off hInv h
  obtain ⟨hpos, hcap, i, hi, hoff, hsz, hbuf, hall, hfb⟩ := allocate_ok s n s' off h
  constructor
  · intro a
    have hbase := hInv.1 a
    rw [blocks, coverCount_append] at hbase
    rw [blocks]
    simp only
    rw [coverCount_append, roundtrip_free_count s n s' off h a]
    exact hbase
  · intro b hb
    rw [blocks] at hb
    simp only at hb
    rcases List.mem_append.mp hb with hb | hb
    · exact hInv.2 b (by rw [blocks, List.mem_append]; exact Or.inl hb)
    · rcases List.mem_append.mp hb with hb | hb
      · exact hInv'.2 b (by rw [blocks, List.mem_append]; exact Or.inr hb)
      · simp only [List.mem_singleton] at hb
        subst hb
        simpa using hpos

/-- C8: on any reachable state, allocating `n` units and immediately freeing
the returned offset yields, after a `defragment()` call, exactly the
free-region list that defragmenting the original state yields (the
allocate/free pair round-trips the free-region set up to defragmentation). -/
theorem C8_alloc_free_roundtrip (s : AllocState) (n : Int) (s' : AllocState)
    (off : Int) (hr : Reachable s) (h : allocate s n = (s', .ok off)) :
    (free s' off).2 = .ok () ∧
    (defragment (free s' off).1).free_blocks = (defragment s).free_blocks := by
  have hInv := reachable_inv s hr
  have hfree := free_after_allocate s n s' off hInv h
  have hInvMid := inv_mid_roundtrip s n s' off hInv h
  constructor
  · rw [hfree]
  · rw [hfree]
    simp only
    have hstate : (defragment (defragment_if_needed
        (AllocState.mk s.buffer_len s.allocations (s'.free_blocks ++ [(off, n)])))).free_blocks
        = (defragment (AllocState.mk s.buffer_len s.allocations
            (s'.free_blocks ++ [(off, n)]))).free_blocks := by
      rw [defragment_if_needed]
      split_ifs with hc
      · rw [defragment_idem _ hInvMid]
      · rfl
    rw [hstate]
    obtain ⟨hg1, hp1, _, hcnt1⟩ := defragment_canon _ hInvMid
    obtain ⟨hg2, hp2, _, hcnt2⟩ := defragment_canon s hInv
    apply canon_unique _ _ hg1 hp1 hg2 hp2
    intro a
    rw [coveredBy_iff_pos, coveredBy_iff_pos, hcnt1 a, hcnt2 a]
    have hrt := roundtrip_free_count s n s' off h a
    constructor
    · intro hlt
      have : coverCount (AllocState.mk s.buffer_len s.allocations
          (s'.free_blocks ++ [(off, n)])).free_blocks a
          = coverCount (s'.free_blocks ++ [(off, n)]) a := rfl
      omega
    · intro hlt
      have : coverCount (AllocState.mk s.buffer_len s.allocations
          (s'.free_blocks ++ [(off, n)])).free_blocks a
          = coverCount (s'.free_blocks ++ [(off, n)]) a := rfl
      omega

/-- Witness for C8 at the concrete call `allocate(1)` then `free(0)` on
`FixedBufferAllocator(2)`. -/
theorem C8_alloc_free_roundtrip_witness :
    (free (AllocState.mk 2 [(0, 1)] [(1, 1)]) 0).2 = .ok () ∧
    (defragment (free (AllocState.mk 2 [(0, 1)] [(1, 1)]) 0).1).free_blocks
      = (defragment (init 2)).free_blocks :=
  C8_alloc_free_roundtrip (init 2) 1 (AllocState.mk 2 [(0, 1)] [(1, 1)]) 0
    (Reachable.init 2 (by norm_num)) (by simp [allocate, init, binSearch])

end MemAlloc
